import Mathlib

set_option maxRecDepth 40000

/-!
Verification of the WiFi wardriving module (`src/modules/wifi/wardriving.cpp`,
`src/modules/wifi/wardriving.h`).

The development shallowly embeds the parts of the module that the checked
properties are about:

* the MAC codec (`isValidMacString`, `macStringToBytes`, `bytesToMacString`);
* the deduplication engine: the bounded in-memory cache (`std::set<String>`
  modelled as a sorted duplicate-free list with `insertSorted`,
  `maintainCache`, `shrinkTo`) and the append-only binary index file
  (modelled as a list of 6-byte records);
* the per-observation body of `append_to_file` (`processObs`), with explicit
  success/failure oracles for the two fallible storage writes (index append
  and data-row write);
* the position tracker (`set_position`), with the external
  `gps.distanceBetween` collaborator (TinyGPS++ library, not part of this
  repository) abstracted as a function parameter;
* the startup GPS wait (`begin_gps`), as a fuel-indexed recursion over the
  streams of "serial data available" and "Esc pressed" observations;
* the polling loop (`loop`), as a state machine stepped by one `GpsIn`
  observation per iteration.  The loop model assumes reliable storage
  (the periodic file-system check and the storage-failure exits are not
  taken), and omits the on-screen display calls, which do not affect any
  state the properties mention.

Machine integers: the GPS date/time fields and the decoded MAC bytes are
small (`< 256` respectively `< 10000`), far below any overflow boundary of
the C types involved, so they are modelled as `Nat` without wrap-around.
-/

/-! ### Constants (wardriving.h lines 45-47, wardriving.cpp lines 16-18) -/

def CACHE_SIZE : Nat := 1000

def BLOCK_SIZE : Nat := 6

def CACHE_CLEAN_THRESHOLD : Nat := 800

def CURRENT_YEAR : Nat := 2024

/-! ### MAC codec (wardriving.cpp lines 248-276)

`isValidMacString` mirrors the length-17 check and the per-index loop
(`i % 3 == 2` positions must be `':'`, all others must satisfy `isxdigit`).
`macStringToBytes` mirrors the `strtol(hexPair, NULL, 16)` loop over the six
two-hex-digit groups (indices 0,3,6,9,12,15); the C function's bool result
and out-parameter are modelled as an `Option`.  `bytesToMacString` mirrors
the single `snprintf "%02X:%02X:%02X:%02X:%02X:%02X"`; every byte passed to
it in the program is `< 256`, where `%02X` prints exactly the two uppercase
hex digits `b / 16` and `b % 16`. -/

def isxdigit (c : Char) : Bool :=
  ('0' ≤ c && c ≤ '9') || ('a' ≤ c && c ≤ 'f') || ('A' ≤ c && c ≤ 'F')

def hexVal (c : Char) : Nat :=
  if '0' ≤ c && c ≤ '9' then c.toNat - '0'.toNat
  else if 'a' ≤ c && c ≤ 'f' then c.toNat - 'a'.toNat + 10
  else c.toNat - 'A'.toNat + 10

def validMacCharAt (l : List Char) (i : Nat) : Bool :=
  if i % 3 == 2 then l.getD i ' ' == ':' else isxdigit (l.getD i ' ')

def isValidMacChars (l : List Char) : Bool :=
  l.length == 17 && (List.range 17).all (validMacCharAt l)

def isValidMacString (mac : String) : Bool :=
  isValidMacChars mac.data

def pairVal (l : List Char) (i : Nat) : Nat :=
  16 * hexVal (l.getD i ' ') + hexVal (l.getD (i + 1) ' ')

def macBytesChars (l : List Char) : List Nat :=
  [pairVal l 0, pairVal l 3, pairVal l 6, pairVal l 9, pairVal l 12, pairVal l 15]

def macStringToBytes (mac : String) : Option (List Nat) :=
  if isValidMacString mac then some (macBytesChars mac.data) else none

def hexDigitUpper (n : Nat) : Char :=
  if n < 10 then Char.ofNat (48 + n) else Char.ofNat (55 + n)

def byteHexUpper (b : Nat) : List Char :=
  [hexDigitUpper (b / 16), hexDigitUpper (b % 16)]

def bytesToMacChars (bs : List Nat) : List Char :=
  byteHexUpper (bs.getD 0 0) ++ ':' ::
  (byteHexUpper (bs.getD 1 0) ++ ':' ::
  (byteHexUpper (bs.getD 2 0) ++ ':' ::
  (byteHexUpper (bs.getD 3 0) ++ ':' ::
  (byteHexUpper (bs.getD 4 0) ++ ':' :: byteHexUpper (bs.getD 5 0)))))

def bytesToMacString (bs : List Nat) : String :=
  ⟨bytesToMacChars bs⟩

/-- The uppercase normalization of a string, character by character.  This is
the reference form the round-trip property compares against. -/
def upperString (s : String) : String :=
  ⟨s.data.map Char.toUpper⟩

/-! ### Character-level facts about the codec -/

theorem charLe_toNat {c a : Char} (h : c ≤ a) : c.toNat ≤ a.toNat := h

theorem isxdigit_enum {a : Char} (h : isxdigit a = true) :
    a = '0' ∨ a = '1' ∨ a = '2' ∨ a = '3' ∨ a = '4' ∨ a = '5' ∨ a = '6' ∨ a = '7' ∨
    a = '8' ∨ a = '9' ∨ a = 'a' ∨ a = 'b' ∨ a = 'c' ∨ a = 'd' ∨ a = 'e' ∨ a = 'f' ∨
    a = 'A' ∨ a = 'B' ∨ a = 'C' ∨ a = 'D' ∨ a = 'E' ∨ a = 'F' := by
  simp only [isxdigit, Bool.or_eq_true, Bool.and_eq_true, decide_eq_true_eq] at h
  obtain ⟨n, hn⟩ : ∃ n, a.toNat = n := ⟨_, rfl⟩
  have ho : Char.ofNat n = a := hn ▸ Char.ofNat_toNat a
  rcases h with (⟨h1, h2⟩ | ⟨h1, h2⟩) | ⟨h1, h2⟩
  · have l1 : 48 ≤ n := hn ▸ charLe_toNat h1
    have l2 : n ≤ 57 := hn ▸ charLe_toNat h2
    interval_cases n <;> rw [← ho] <;> simp
  · have l1 : 97 ≤ n := hn ▸ charLe_toNat h1
    have l2 : n ≤ 102 := hn ▸ charLe_toNat h2
    interval_cases n <;> rw [← ho] <;> simp
  · have l1 : 65 ≤ n := hn ▸ charLe_toNat h1
    have l2 : n ≤ 70 := hn ▸ charLe_toNat h2
    interval_cases n <;> rw [← ho] <;> simp

theorem hexDigitUpper_hexVal {a : Char} (h : isxdigit a = true) :
    hexDigitUpper (hexVal a) = a.toUpper := by
  rcases isxdigit_enum h with h|h|h|h|h|h|h|h|h|h|h|h|h|h|h|h|h|h|h|h|h|h <;> subst h <;> decide

theorem hexVal_lt_16 {a : Char} (h : isxdigit a = true) : hexVal a < 16 := by
  rcases isxdigit_enum h with h|h|h|h|h|h|h|h|h|h|h|h|h|h|h|h|h|h|h|h|h|h <;> subst h <;> decide

theorem byteHexUpper_pair {a b : Char} (ha : isxdigit a = true) (hb : isxdigit b = true) :
    byteHexUpper (16 * hexVal a + hexVal b) = [a.toUpper, b.toUpper] := by
  have hva := hexVal_lt_16 ha
  have hvb := hexVal_lt_16 hb
  have h1 : (16 * hexVal a + hexVal b) / 16 = hexVal a := by omega
  have h2 : (16 * hexVal a + hexVal b) % 16 = hexVal b := by omega
  simp [byteHexUpper, h1, h2, hexDigitUpper_hexVal ha, hexDigitUpper_hexVal hb]

theorem valid_length {l : List Char} (h : isValidMacChars l = true) : l.length = 17 := by
  simp only [isValidMacChars, Bool.and_eq_true, beq_iff_eq] at h
  exact h.1

theorem valid_at {l : List Char} (h : isValidMacChars l = true) {i : Nat} (hi : i < 17) :
    validMacCharAt l i = true := by
  simp only [isValidMacChars, Bool.and_eq_true, List.all_eq_true] at h
  exact h.2 i (List.mem_range.mpr hi)

theorem list_eq_of_length_17 {α : Type} {l : List α} (h : l.length = 17) :
    ∃ a0 a1 a2 a3 a4 a5 a6 a7 a8 a9 a10 a11 a12 a13 a14 a15 a16,
      l = [a0,a1,a2,a3,a4,a5,a6,a7,a8,a9,a10,a11,a12,a13,a14,a15,a16] :=
  match l, h with
  | [b0,b1,b2,b3,b4,b5,b6,b7,b8,b9,b10,b11,b12,b13,b14,b15,b16], rfl =>
    ⟨b0,b1,b2,b3,b4,b5,b6,b7,b8,b9,b10,b11,b12,b13,b14,b15,b16, rfl⟩

theorem roundtrip_chars {l : List Char} (h : isValidMacChars l = true) :
    bytesToMacChars (macBytesChars l) = l.map Char.toUpper := by
  obtain ⟨a0,a1,c2,a3,a4,c5,a6,a7,c8,a9,a10,c11,a12,a13,c14,a15,a16,rfl⟩ :=
    list_eq_of_length_17 (valid_length h)
  have hx : ∀ i, i < 17 → i % 3 ≠ 2 →
      isxdigit ([a0,a1,c2,a3,a4,c5,a6,a7,c8,a9,a10,c11,a12,a13,c14,a15,a16].getD i ' ') = true := by
    intro i hi hm
    have := valid_at h hi
    simpa [validMacCharAt, hm] using this
  have hcol : ∀ i, i < 17 → i % 3 = 2 →
      [a0,a1,c2,a3,a4,c5,a6,a7,c8,a9,a10,c11,a12,a13,c14,a15,a16].getD i ' ' = ':' := by
    intro i hi hm
    have := valid_at h hi
    simpa [validMacCharAt, hm] using this
  have h0 : isxdigit a0 = true := by simpa using hx 0 (by norm_num) (by norm_num)
  have h1 : isxdigit a1 = true := by simpa using hx 1 (by norm_num) (by norm_num)
  have h3 : isxdigit a3 = true := by simpa using hx 3 (by norm_num) (by norm_num)
  have h4 : isxdigit a4 = true := by simpa using hx 4 (by norm_num) (by norm_num)
  have h6 : isxdigit a6 = true := by simpa using hx 6 (by norm_num) (by norm_num)
  have h7 : isxdigit a7 = true := by simpa using hx 7 (by norm_num) (by norm_num)
  have h9 : isxdigit a9 = true := by simpa using hx 9 (by norm_num) (by norm_num)
  have h10 : isxdigit a10 = true := by simpa using hx 10 (by norm_num) (by norm_num)
  have h12 : isxdigit a12 = true := by simpa using hx 12 (by norm_num) (by norm_num)
  have h13 : isxdigit a13 = true := by simpa using hx 13 (by norm_num) (by norm_num)
  have h15 : isxdigit a15 = true := by simpa using hx 15 (by norm_num) (by norm_num)
  have h16 : isxdigit a16 = true := by simpa using hx 16 (by norm_num) (by norm_num)
  have e2 : c2 = ':' := by simpa using hcol 2 (by norm_num) (by norm_num)
  have e5 : c5 = ':' := by simpa using hcol 5 (by norm_num) (by norm_num)
  have e8 : c8 = ':' := by simpa using hcol 8 (by norm_num) (by norm_num)
  have e11 : c11 = ':' := by simpa using hcol 11 (by norm_num) (by norm_num)
  have e14 : c14 = ':' := by simpa using hcol 14 (by norm_num) (by norm_num)
  subst e2 e5 e8 e11 e14
  have hu : Char.toUpper ':' = ':' := by decide
  simp only [macBytesChars, bytesToMacChars, pairVal, List.getD_cons_zero, List.getD_cons_succ,
    List.map_cons, List.map_nil, hu]
  rw [byteHexUpper_pair h0 h1, byteHexUpper_pair h3 h4, byteHexUpper_pair h6 h7,
    byteHexUpper_pair h9 h10, byteHexUpper_pair h12 h13, byteHexUpper_pair h15 h16]
  rfl

/-- C7: for every address string that passes validation (17 characters, `':'`
at positions 2,5,8,11,14, hex digits elsewhere), encoding succeeds and
decoding the encoded bytes yields the uppercase-normalized form of the
input. -/
theorem mac_roundtrip_uppercase (mac : String) (h : isValidMacString mac = true) :
    macStringToBytes mac = some (macBytesChars mac.data) ∧
    bytesToMacString (macBytesChars mac.data) = upperString mac := by
  refine ⟨by simp [macStringToBytes, h], ?_⟩
  unfold bytesToMacString upperString
  exact congrArg String.mk (roundtrip_chars h)

/-- Witness for `mac_roundtrip_uppercase` at the concrete valid address
`"aa:bb:cc:dd:ee:0f"`. -/
theorem mac_roundtrip_uppercase_witness :
    isValidMacString "aa:bb:cc:dd:ee:0f" = true ∧
    (macStringToBytes "aa:bb:cc:dd:ee:0f" = some (macBytesChars "aa:bb:cc:dd:ee:0f".data) ∧
      bytesToMacString (macBytesChars "aa:bb:cc:dd:ee:0f".data) =
        upperString "aa:bb:cc:dd:ee:0f") :=
  ⟨by decide, mac_roundtrip_uppercase "aa:bb:cc:dd:ee:0f" (by decide)⟩

/-! ### Deduplication engine: in-memory cache (wardriving.cpp lines 296-363)

`std::set<String>` keeps its elements sorted (Arduino `String` comparison is
lexicographic byte order, as is Lean's `String` order on ASCII data) with no
duplicates; it is modelled as a sorted duplicate-free list.  `insert` is
`insertSorted`; `erase(begin())` removes the head, i.e. the least element,
which `shrinkTo` repeats while the size exceeds the target, exactly as the
`while` loop of `maintainCache` does with `targetSize = CACHE_SIZE / 2`.
`isMacInCache` is the membership test `macAddressCache.find(mac) != end()`. -/

def charsLt : List Char → List Char → Bool
  | [], [] => false
  | [], _ :: _ => true
  | _ :: _, [] => false
  | a :: as, b :: bs => if a < b then true else if b < a then false else charsLt as bs

/-- Lexicographic byte-order comparison of two strings, the order in which
`std::set<String>` keeps the cache (Arduino `String::operator<` compares
bytes; on the ASCII data of MAC strings this is codepoint order). -/
def stringLt (s t : String) : Bool := charsLt s.data t.data

def insertSorted (mac : String) : List String → List String
  | [] => [mac]
  | x :: xs =>
    if stringLt mac x then mac :: x :: xs
    else if mac = x then x :: xs
    else x :: insertSorted mac xs

def shrinkTo (t : Nat) : List String → List String
  | [] => []
  | x :: xs => if (x :: xs).length > t then shrinkTo t xs else x :: xs

def maintainCache (c : List String) : List String :=
  if c.length > CACHE_CLEAN_THRESHOLD then shrinkTo (CACHE_SIZE / 2) c else c

def addMacToCache (mac : String) (c : List String) : List String :=
  maintainCache (insertSorted mac c)

def isMacInCache (mac : String) (c : List String) : Bool :=
  c.contains mac

/-- Recording a whole sequence of addresses into the cache, starting from the
empty cache of a fresh session. -/
def recordAll (addrs : List String) : List String :=
  addrs.foldl (fun acc m => addMacToCache m acc) []

theorem shrinkTo_length (t : Nat) (c : List String) :
    (shrinkTo t c).length = min c.length t := by
  induction c with
  | nil => simp [shrinkTo]
  | cons x xs ih =>
    rw [shrinkTo]
    by_cases h : (x :: xs).length > t
    · rw [if_pos h, ih]
      simp at h ⊢
      omega
    · rw [if_neg h]
      simp at h ⊢
      omega

theorem length_insertSorted_le (m : String) (c : List String) :
    (insertSorted m c).length ≤ c.length + 1 := by
  induction c with
  | nil => simp [insertSorted]
  | cons x xs ih =>
    by_cases hlt : stringLt m x = true
    · simp [insertSorted, hlt]
    · by_cases heq : m = x
      · rw [insertSorted, if_neg hlt, if_pos heq]
        simp
      · simp only [insertSorted, if_neg hlt, if_neg heq, List.length_cons]
        omega

theorem length_insertSorted_of_not_mem (m : String) (c : List String) (h : m ∉ c) :
    (insertSorted m c).length = c.length + 1 := by
  induction c with
  | nil => simp [insertSorted]
  | cons x xs ih =>
    have hne : m ≠ x := by intro e; exact h (e ▸ List.mem_cons_self x xs)
    have hxs : m ∉ xs := fun hm => h (List.mem_cons_of_mem x hm)
    by_cases hlt : stringLt m x = true
    · simp [insertSorted, hlt]
    · simp only [insertSorted, if_neg hlt, if_neg hne, List.length_cons, ih hxs]

theorem mem_insertSorted_iff (b m : String) (c : List String) :
    b ∈ insertSorted m c ↔ b = m ∨ b ∈ c := by
  induction c with
  | nil => simp [insertSorted]
  | cons x xs ih =>
    by_cases hlt : stringLt m x = true
    · simp [insertSorted, hlt]
    · by_cases heq : m = x
      · subst heq
        simp [insertSorted, hlt]
      · simp [insertSorted, hlt, heq, ih]
        tauto

theorem maintainCache_length (c : List String) :
    (maintainCache c).length =
      if c.length > CACHE_CLEAN_THRESHOLD then CACHE_SIZE / 2 else c.length := by
  rw [maintainCache]
  by_cases h : c.length > CACHE_CLEAN_THRESHOLD
  · rw [if_pos h, if_pos h, shrinkTo_length]
    simp [CACHE_SIZE, CACHE_CLEAN_THRESHOLD] at h ⊢
    omega
  · rw [if_neg h, if_neg h]

theorem addMacToCache_length_le (m : String) (c : List String) :
    (addMacToCache m c).length ≤ CACHE_CLEAN_THRESHOLD := by
  rw [addMacToCache, maintainCache_length]
  have := length_insertSorted_le m c
  by_cases hgt : (insertSorted m c).length > CACHE_CLEAN_THRESHOLD
  · rw [if_pos hgt]; norm_num [CACHE_SIZE, CACHE_CLEAN_THRESHOLD]
  · rw [if_neg hgt]; omega

theorem addMacToCache_crossing (m : String) (c : List String)
    (hlen : c.length = CACHE_CLEAN_THRESHOLD) (hmem : m ∉ c) :
    (addMacToCache m c).length = CACHE_SIZE / 2 := by
  rw [addMacToCache, maintainCache_length, length_insertSorted_of_not_mem m c hmem, hlen]
  norm_num

theorem foldl_cache_length_le (addrs : List String) (c : List String)
    (h : c.length ≤ CACHE_CLEAN_THRESHOLD) :
    (addrs.foldl (fun acc m => addMacToCache m acc) c).length ≤ CACHE_CLEAN_THRESHOLD := by
  induction addrs generalizing c with
  | nil => simpa using h
  | cons a rest ih => exact ih _ (addMacToCache_length_le a c)

theorem foldl_cache_distinct (addrs : List String) (c : List String)
    (hnd : addrs.Nodup) (hdisj : ∀ a ∈ addrs, a ∉ c)
    (hlen : c.length + addrs.length ≤ CACHE_CLEAN_THRESHOLD) :
    (addrs.foldl (fun acc m => addMacToCache m acc) c).length = c.length + addrs.length ∧
    ∀ b, b ∈ addrs.foldl (fun acc m => addMacToCache m acc) c ↔ b ∈ addrs ∨ b ∈ c := by
  induction addrs generalizing c with
  | nil => simp
  | cons a rest ih =>
    have hnotmem : a ∉ c := hdisj a (List.mem_cons_self a rest)
    have hlen1 : (insertSorted a c).length = c.length + 1 :=
      length_insertSorted_of_not_mem a c hnotmem
    have hcons : (a :: rest).length = rest.length + 1 := rfl
    have hnoshrink : addMacToCache a c = insertSorted a c := by
      rw [addMacToCache, maintainCache, if_neg]
      rw [hlen1]
      rw [hcons] at hlen
      omega
    have hnd2 : rest.Nodup := (List.nodup_cons.mp hnd).2
    have hand : a ∉ rest := (List.nodup_cons.mp hnd).1
    have hdisj2 : ∀ b ∈ rest, b ∉ insertSorted a c := by
      intro b hb hmem
      rcases (mem_insertSorted_iff b a c).mp hmem with rfl | hbc
      · exact hand hb
      · exact hdisj b (List.mem_cons_of_mem a hb) hbc
    have hlen2 : (insertSorted a c).length + rest.length ≤ CACHE_CLEAN_THRESHOLD := by
      rw [hlen1]; rw [hcons] at hlen; omega
    have := ih (insertSorted a c) hnd2 hdisj2 hlen2
    rw [List.foldl_cons, hnoshrink]
    refine ⟨?_, ?_⟩
    · rw [this.1, hlen1, hcons]; omega
    · intro b
      rw [this.2 b, mem_insertSorted_iff]
      simp
      tauto

theorem recordAll_crossing (addrs : List String)
    (hnd : addrs.Nodup) (hlen : CACHE_CLEAN_THRESHOLD + 1 ≤ addrs.length) :
    (recordAll (addrs.take (CACHE_CLEAN_THRESHOLD + 1))).length = CACHE_SIZE / 2 := by
  have h800 : CACHE_CLEAN_THRESHOLD < addrs.length := hlen
  have htake : addrs.take (CACHE_CLEAN_THRESHOLD + 1) =
      addrs.take CACHE_CLEAN_THRESHOLD ++ [addrs.get ⟨CACHE_CLEAN_THRESHOLD, h800⟩] := by
    rw [List.take_succ, List.getElem?_eq_getElem h800]
    simp [List.get_eq_getElem]
  have hndt : (addrs.take (CACHE_CLEAN_THRESHOLD + 1)).Nodup :=
    (List.take_sublist _ _).nodup hnd
  rw [htake] at hndt
  have hnotin : addrs.get ⟨CACHE_CLEAN_THRESHOLD, h800⟩ ∉ addrs.take CACHE_CLEAN_THRESHOLD := by
    have := List.nodup_append.mp hndt
    intro hmem
    exact this.2.2 hmem (List.mem_singleton_self _)
  have hlen800 : (addrs.take CACHE_CLEAN_THRESHOLD).length = CACHE_CLEAN_THRESHOLD := by
    rw [List.length_take]
    omega
  have hfold := foldl_cache_distinct (addrs.take CACHE_CLEAN_THRESHOLD) []
    ((List.take_sublist _ _).nodup hnd) (by simp) (by rw [hlen800]; simp)
  rw [recordAll, htake, List.foldl_append]
  have hmemiff := hfold.2
  have hflen : ((addrs.take CACHE_CLEAN_THRESHOLD).foldl
      (fun acc m => addMacToCache m acc) []).length = CACHE_CLEAN_THRESHOLD := by
    rw [hfold.1, hlen800]
    simp
  have hnotfold : addrs.get ⟨CACHE_CLEAN_THRESHOLD, h800⟩ ∉
      (addrs.take CACHE_CLEAN_THRESHOLD).foldl (fun acc m => addMacToCache m acc) [] := by
    intro hmem
    rcases (hmemiff _).mp hmem with hc | hc
    · exact hnotin hc
    · simp at hc
  simpa using addMacToCache_crossing _ _ hflen hnotfold

/-- C4: recording any sequence of addresses into the engine keeps the cache
size at or below `CACHE_CLEAN_THRESHOLD` (hence below `CACHE_SIZE`) after
every completed record, and for a sequence of more than
`CACHE_CLEAN_THRESHOLD` distinct addresses, immediately after the record
that first crosses the threshold the cache holds exactly `CACHE_SIZE / 2`
entries. -/
theorem cache_bound_and_halving :
    (∀ (addrs : List String) (k : Nat),
        (recordAll (addrs.take k)).length ≤ CACHE_CLEAN_THRESHOLD ∧
        (recordAll (addrs.take k)).length ≤ CACHE_SIZE)
  ∧ (∀ addrs : List String, addrs.Nodup → CACHE_CLEAN_THRESHOLD + 1 ≤ addrs.length →
        (recordAll (addrs.take (CACHE_CLEAN_THRESHOLD + 1))).length = CACHE_SIZE / 2) := by
  constructor
  · intro addrs k
    have h := foldl_cache_length_le (addrs.take k) [] (by simp)
    refine ⟨h, le_trans h (by norm_num [CACHE_CLEAN_THRESHOLD, CACHE_SIZE])⟩
  · intro addrs hnd hlen
    exact recordAll_crossing addrs hnd hlen

/-- Concrete list of 801 pairwise-distinct strings (distinguished by length)
used to witness the cache-halving theorem. -/
def distinctAddrs : List String := (List.range 801).map (fun n => ⟨List.replicate n 'a'⟩)

/-- Witness for `cache_bound_and_halving`: the 801 distinct concrete strings
of `distinctAddrs` satisfy both hypotheses, and recording them crosses the
threshold and leaves exactly `CACHE_SIZE / 2` cache entries. -/
theorem cache_bound_and_halving_witness :
    (distinctAddrs.Nodup ∧ CACHE_CLEAN_THRESHOLD + 1 ≤ distinctAddrs.length) ∧
    (recordAll (distinctAddrs.take 5)).length ≤ CACHE_CLEAN_THRESHOLD ∧
    (recordAll (distinctAddrs.take (CACHE_CLEAN_THRESHOLD + 1))).length = CACHE_SIZE / 2 := by
  have hnd : distinctAddrs.Nodup := by
    apply List.Nodup.map
    · intro a b h
      have hd : List.replicate a 'a' = List.replicate b 'a' := congrArg String.data h
      have := congrArg List.length hd
      simpa using this
    · exact List.nodup_range 801
  have hlen : CACHE_CLEAN_THRESHOLD + 1 ≤ distinctAddrs.length := by
    simp [distinctAddrs, CACHE_CLEAN_THRESHOLD]
  exact ⟨⟨hnd, hlen⟩, (cache_bound_and_halving.1 distinctAddrs 5).1,
    cache_bound_and_halving.2 distinctAddrs hnd hlen⟩

/-! ### Deduplication engine: persistent index (wardriving.cpp lines 278-354)

The index file is a raw concatenation of 6-byte records, modelled as a list
of byte lists.  `isMacInIndex` mirrors the linear scan that reads
`BLOCK_SIZE` bytes at a time and `memcmp`s them against the encoded query
(reads are modelled as reliable; an unreadable index makes the function
return `false` exactly like an unencodable query, a case the theorems do
not rely on).  `addMacToIndex` mirrors the append: the `appendOk` oracle
stands for the `FILE_APPEND` open and the 6-byte `write` both succeeding;
on failure the file is unchanged and `false` is returned.  `recordMac` is
the recording step of `append_to_file` (lines 412-419): cache insertion
first, then the index append. -/

def isMacInIndex (mac : String) (index : List (List Nat)) : Bool :=
  match macStringToBytes mac with
  | none => false
  | some bs => index.contains bs

def addMacToIndex (mac : String) (index : List (List Nat)) (appendOk : Bool) :
    Bool × List (List Nat) :=
  match macStringToBytes mac with
  | none => (false, index)
  | some bs => if appendOk then (true, index ++ [bs]) else (false, index)

def recordMac (mac : String) (c : List String) (index : List (List Nat)) (appendOk : Bool) :
    Bool × List String × List (List Nat) :=
  let c2 := addMacToCache mac c
  let r := addMacToIndex mac index appendOk
  (r.1, c2, r.2)

theorem maintainCache_eq_of_le {c : List String} (h : c.length ≤ CACHE_CLEAN_THRESHOLD) :
    maintainCache c = c := by
  rw [maintainCache, if_neg]
  omega

/-- A valid MAC string all of whose cache neighbours in `bigCache` compare
above it, so that the cleanup triggered by its own insertion evicts it. -/
def mkCacheMac (i : Nat) : String :=
  ⟨'F' :: 'F' :: ':' :: 'F' :: 'F' :: ':' :: 'F' :: 'F' :: ':' :: 'F' :: 'F' :: ':' ::
   (byteHexUpper (i / 256) ++ ':' :: byteHexUpper (i % 256))⟩

/-- A concrete cache state holding exactly `CACHE_CLEAN_THRESHOLD` distinct
valid addresses, all lexicographically above `"AA:AA:AA:AA:AA:AA"`. -/
def bigCache : List String := (List.range 800).map mkCacheMac

/-- C5 counterexample: recording the valid address `"AA:AA:AA:AA:AA:AA"`
with a failing index append into a full cache of 800 larger addresses
returns `false` as claimed, but the address does NOT remain deduplicated
in-memory: its own insertion crossed the cleanup threshold and the cleanup
evicted the lexicographically least entries, including the address itself,
so `isMacInCache` is `false` immediately after the record. -/
theorem record_failed_append_claim_counterexample :
    isValidMacString "AA:AA:AA:AA:AA:AA" = true ∧
    bigCache.length = CACHE_CLEAN_THRESHOLD ∧
    (recordMac "AA:AA:AA:AA:AA:AA" bigCache [] false).1 = false ∧
    isMacInCache "AA:AA:AA:AA:AA:AA"
      (recordMac "AA:AA:AA:AA:AA:AA" bigCache [] false).2.1 = false := by
  decide

/-- C5 (amended): `record` inserts into the in-memory cache before the
persistent-index append and returns `false` when the append fails, leaving
the index unchanged; the cache insertion is not rolled back (the cache is
exactly what a successful record would have produced).  The address is
guaranteed to be found in the cache afterwards only when its insertion did
not trigger cache cleanup (cache size below `CACHE_CLEAN_THRESHOLD`);
cleanup may evict it, immediately or later in the session. -/
theorem record_failed_append_not_rolled_back (mac : String) (c : List String)
    (index : List (List Nat)) (hv : isValidMacString mac = true) :
    (recordMac mac c index false).1 = false ∧
    (recordMac mac c index false).2.1 = addMacToCache mac c ∧
    (recordMac mac c index false).2.2 = index ∧
    (c.length < CACHE_CLEAN_THRESHOLD →
      isMacInCache mac (recordMac mac c index false).2.1 = true) := by
  have hb : macStringToBytes mac = some (macBytesChars mac.data) := by
    simp [macStringToBytes, hv]
  refine ⟨by simp [recordMac, addMacToIndex, hb], rfl, by simp [recordMac, addMacToIndex, hb], ?_⟩
  intro hlen
  have hle : (insertSorted mac c).length ≤ CACHE_CLEAN_THRESHOLD := by
    have := length_insertSorted_le mac c
    omega
  have : (recordMac mac c index false).2.1 = insertSorted mac c := by
    show addMacToCache mac c = insertSorted mac c
    rw [addMacToCache, maintainCache_eq_of_le hle]
  rw [this]
  have hmem : mac ∈ insertSorted mac c := (mem_insertSorted_iff mac mac c).mpr (Or.inl rfl)
  simpa [isMacInCache] using hmem

/-- Witness for `record_failed_append_not_rolled_back` at the concrete valid
address `"AA:AA:AA:AA:AA:AA"` and the empty cache and index. -/
theorem record_failed_append_not_rolled_back_witness :
    isValidMacString "AA:AA:AA:AA:AA:AA" = true ∧
    ((recordMac "AA:AA:AA:AA:AA:AA" [] [] false).1 = false ∧
     (recordMac "AA:AA:AA:AA:AA:AA" [] [] false).2.1 = addMacToCache "AA:AA:AA:AA:AA:AA" [] ∧
     (recordMac "AA:AA:AA:AA:AA:AA" [] [] false).2.2 = [] ∧
     (([] : List String).length < CACHE_CLEAN_THRESHOLD →
       isMacInCache "AA:AA:AA:AA:AA:AA" (recordMac "AA:AA:AA:AA:AA:AA" [] [] false).2.1 = true)) :=
  ⟨by decide, record_failed_append_not_rolled_back "AA:AA:AA:AA:AA:AA" [] [] (by decide)⟩

/-! ### Per-observation body of `append_to_file` (wardriving.cpp lines 395-455)

One scanned observation carries the fields the control flow reads: the
MAC string (`WiFi.BSSIDstr(i)`) and the network name (`WiFi.SSID(i)`).
`processObsF` is the loop body: invalid MAC → skip; empty SSID → skip;
MAC in cache or index → skip; otherwise cache insertion, then index append
(on failure `continue`, i.e. no data row and no counter change), then the
data-row `file.print` (on failure only a warning: no counter change; the
model takes a failed row print as writing nothing).  `rows` records, for
each data row written, the MAC that identifies it; the remaining CSV fields
(floating-point coordinates etc.) play no role in any property here.
`appendOk`/`writeOk` are the success oracles of the two storage writes;
`processObs` is the body under reliable storage. -/

structure Obs where
  mac : String
  ssid : String
deriving DecidableEq

structure WDState where
  cache : List String
  index : List (List Nat)
  rows : List String
  netCount : Nat
deriving DecidableEq

def processObsF (s : WDState) (o : Obs) (appendOk writeOk : Bool) : WDState :=
  if isValidMacString o.mac = false then s
  else if o.ssid = "" then s
  else if isMacInCache o.mac s.cache || isMacInIndex o.mac s.index then s
  else
    let c2 := addMacToCache o.mac s.cache
    let r := addMacToIndex o.mac s.index appendOk
    if r.1 = false then { s with cache := c2 }
    else if writeOk then
      { cache := c2, index := r.2, rows := s.rows ++ [o.mac], netCount := s.netCount + 1 }
    else { s with cache := c2, index := r.2 }

def processObs (s : WDState) (o : Obs) : WDState :=
  processObsF s o true true

def processScan (s : WDState) (obs : List Obs) : WDState :=
  obs.foldl processObs s

theorem processObs_index (s : WDState) (o : Obs) :
    (processObs s o).index =
      s.index ++
        (if isValidMacString o.mac = true ∧ o.ssid ≠ "" ∧
            isMacInCache o.mac s.cache = false ∧ isMacInIndex o.mac s.index = false
         then [macBytesChars o.mac.data] else []) := by
  by_cases hv : isValidMacString o.mac = true
  · by_cases hs : o.ssid = ""
    · simp [processObs, processObsF, hv, hs]
    · by_cases hc : isMacInCache o.mac s.cache = true
      · simp [processObs, processObsF, hv, hs, hc]
      · by_cases hi : isMacInIndex o.mac s.index = true
        · simp [processObs, processObsF, hv, hs, hc, hi]
        · simp only [Bool.not_eq_true] at hc hi
          simp [processObs, processObsF, hv, hs, hc, hi, addMacToIndex, macStringToBytes]
  · simp only [Bool.not_eq_true] at hv
    simp [processObs, processObsF, hv]

theorem processScan_append_only (s : WDState) (obs : List Obs) :
    ∃ t, (processScan s obs).index = s.index ++ t := by
  induction obs generalizing s with
  | nil => exact ⟨[], by simp [processScan]⟩
  | cons o rest ih =>
    obtain ⟨t2, ht2⟩ := ih (processObs s o)
    refine ⟨(if isValidMacString o.mac = true ∧ o.ssid ≠ "" ∧
        isMacInCache o.mac s.cache = false ∧ isMacInIndex o.mac s.index = false
      then [macBytesChars o.mac.data] else []) ++ t2, ?_⟩
    have hstep : processScan s (o :: rest) = processScan (processObs s o) rest := rfl
    rw [hstep, ht2, processObs_index, List.append_assoc]

/-- C3: in the per-observation processing of `append_to_file` (under
reliable storage), a 6-byte record is appended to the persistent index at a
given step if and only if, at that moment, the observation reached the
insertion point (valid MAC, nonempty SSID) and its address was present
neither in the in-memory cache nor in the persistent index; moreover a
whole scan only ever extends the index: the prior contents remain an
unchanged initial segment, never rewritten or truncated. -/
theorem index_append_iff_absent :
    (∀ (s : WDState) (o : Obs),
      (processObs s o).index =
        s.index ++
          (if isValidMacString o.mac = true ∧ o.ssid ≠ "" ∧
              isMacInCache o.mac s.cache = false ∧ isMacInIndex o.mac s.index = false
           then [macBytesChars o.mac.data] else []))
  ∧ (∀ (s : WDState) (obs : List Obs), ∃ t, (processScan s obs).index = s.index ++ t) :=
  ⟨processObs_index, processScan_append_only⟩

/-- C10: when recording succeeds for an observation (the address goes into
the cache and the 6-byte record into the index) but the data-row write
fails, the unique-network counter is not incremented and no data row is
written, while the address stays in the persistent index and the cache is
exactly the post-record cache; any later processing of an observation with
that address — this session or a future one (fresh cache, same index) — is
skipped with no state change, so the observation is never written to any
log. -/
theorem row_write_failure_never_logged (s : WDState) (o : Obs)
    (hv : isValidMacString o.mac = true) (hs : o.ssid ≠ "")
    (hc : isMacInCache o.mac s.cache = false) (hi : isMacInIndex o.mac s.index = false) :
    (processObsF s o true false).netCount = s.netCount ∧
    (processObsF s o true false).rows = s.rows ∧
    isMacInIndex o.mac (processObsF s o true false).index = true ∧
    (processObsF s o true false).cache = addMacToCache o.mac s.cache ∧
    (∀ (t : WDState) (a w : Bool) (o2 : Obs), o2.mac = o.mac →
      isMacInIndex o2.mac t.index = true → processObsF t o2 a w = t) := by
  have hstate : processObsF s o true false =
      { s with cache := addMacToCache o.mac s.cache,
               index := s.index ++ [macBytesChars o.mac.data] } := by
    simp [processObsF, hv, hs, hc, hi, addMacToIndex, macStringToBytes]
  refine ⟨by rw [hstate], by rw [hstate], ?_, by rw [hstate], ?_⟩
  · rw [hstate]
    simp [isMacInIndex, macStringToBytes, hv]
  · intro t a w o2 hmac hidx
    have hv2 : isValidMacString o2.mac = true := by rw [hmac]; exact hv
    by_cases hs2 : o2.ssid = ""
    · simp [processObsF, hv2, hs2]
    · simp [processObsF, hv2, hs2, hidx]

/-- Witness for `row_write_failure_never_logged`: fresh session state and the
concrete observation `AA:BB:CC:DD:EE:01` / `"Net1"`. -/
theorem row_write_failure_never_logged_witness :
    (isValidMacString "AA:BB:CC:DD:EE:01" = true ∧
     ("Net1" : String) ≠ "" ∧
     isMacInCache "AA:BB:CC:DD:EE:01" ([] : List String) = false ∧
     isMacInIndex "AA:BB:CC:DD:EE:01" ([] : List (List Nat)) = false) ∧
    ((processObsF ⟨[], [], [], 0⟩ ⟨"AA:BB:CC:DD:EE:01", "Net1"⟩ true false).netCount = 0 ∧
     (processObsF ⟨[], [], [], 0⟩ ⟨"AA:BB:CC:DD:EE:01", "Net1"⟩ true false).rows = [] ∧
     isMacInIndex "AA:BB:CC:DD:EE:01"
       (processObsF ⟨[], [], [], 0⟩ ⟨"AA:BB:CC:DD:EE:01", "Net1"⟩ true false).index = true ∧
     (processObsF ⟨[], [], [], 0⟩ ⟨"AA:BB:CC:DD:EE:01", "Net1"⟩ true false).cache =
       addMacToCache "AA:BB:CC:DD:EE:01" [] ∧
     (∀ (t : WDState) (a w : Bool) (o2 : Obs), o2.mac = "AA:BB:CC:DD:EE:01" →
       isMacInIndex o2.mac t.index = true → processObsF t o2 a w = t)) :=
  ⟨⟨by decide, by decide, by decide, by decide⟩,
    row_write_failure_never_logged ⟨[], [], [], 0⟩ ⟨"AA:BB:CC:DD:EE:01", "Net1"⟩
      (by decide) (by decide) (by decide) (by decide)⟩

/-! ### Position tracker (wardriving.cpp lines 167-176)

`set_position` reads the fix, adds `gps.distanceBetween(cur, new)` to the
running distance when a position was already set, and then updates the
current position.  `gps.distanceBetween` is the TinyGPS++ library's
haversine great-circle distance — an external collaborator, not part of
this repository — so it enters the model as an explicit function parameter
`d`; coordinates and distances are exact rationals standing for the
program's doubles. -/

structure PosState where
  initialSet : Bool
  curLat : ℚ
  curLng : ℚ
  dist : ℚ
deriving DecidableEq

def initPos : PosState :=
  { initialSet := false, curLat := 0, curLng := 0, dist := 0 }

def setPosition (d : ℚ × ℚ → ℚ × ℚ → ℚ) (s : PosState) (fix : ℚ × ℚ) : PosState :=
  if s.initialSet then
    { initialSet := true, curLat := fix.1, curLng := fix.2,
      dist := s.dist + d (s.curLat, s.curLng) fix }
  else
    { initialSet := true, curLat := fix.1, curLng := fix.2, dist := s.dist }

def pairwiseSum (d : ℚ × ℚ → ℚ × ℚ → ℚ) : List (ℚ × ℚ) → ℚ
  | [] => 0
  | [_] => 0
  | f1 :: f2 :: rest => d f1 f2 + pairwiseSum d (f2 :: rest)

/-! ### Startup GPS wait (wardriving.cpp lines 55-76)

`begin_gps` spins in `while (GPSserial.available() <= 0)`, checking Esc at
each turn, with no other exit.  `avail j` / `esc j` give the two polled
observations at the j-th turn of the loop; the fuel argument bounds how
many turns are examined.  `some true` is the data-arrived exit
(`gpsConnected = true`), `some false` the user-cancel exit (`end()`,
return `false`), `none` means the loop is still waiting after that many
turns. -/

def beginGpsAux (avail esc : Nat → Bool) (i : Nat) : Nat → Option Bool
  | 0 => none
  | fuel + 1 =>
    if avail i then some true
    else if esc i then some false
    else beginGpsAux avail esc (i + 1) fuel

/-! ### Output filename (wardriving.cpp lines 233-246)

`create_filename` renders `"%02d%02d%02d_%02d%02d%02d"` over
`gps.date.year(), month(), day(), time.hour(), minute(), second()` and
appends `"_wardriving.csv"`.  `pad2` is the `%02d` conversion: minimum
width two, zero-padded, full decimal beyond two digits.  TinyGPS++'s
`year()` is the full four-digit year — the loop itself compares it against
`CURRENT_YEAR = 2024`. -/

def pad2 (n : Nat) : String :=
  if n < 10 then "0" ++ toString n else toString n

def createFilename (y mo d h mi s : Nat) : String :=
  pad2 y ++ pad2 mo ++ pad2 d ++ "_" ++ pad2 h ++ pad2 mi ++ pad2 s ++ "_wardriving.csv"

/-- The filename shape asserted by the spec sentence under check: two-digit
year, month, day, underscore, hour, minute, second, then `_wardriving.csv`
— i.e. 6 digits, `'_'`, 6 digits and the 15-character suffix, 28 characters
in all.  Stated from the spec's words, for comparison with
`createFilename`. -/
def specClaimedFilenameShape (f : String) : Bool :=
  f.data.length == 28 &&
  ((List.range 6).all fun i => (f.data.getD i ' ').isDigit) &&
  (f.data.getD 6 ' ' == '_') &&
  ((List.range 6).all fun i => (f.data.getD (7 + i) ' ').isDigit) &&
  (f.data.drop 13 == "_wardriving.csv".data)

/-! ### Polling loop (wardriving.cpp lines 117-165)

One `GpsIn` record carries everything the loop body reads from the outside
during one iteration: the Esc poll, `GPSserial.available() > 0`,
`gps.location.isUpdated()`, the GPS date/time registers, and the scan
result (`scan_networks` hands a nonempty result to `append_to_file`; an
empty scan returns early).  The model assumes reliable storage: the
periodic `checkFileSystem`/`initializeIndex` calls succeed and no
`append_to_file` storage exit triggers `returnToMenu`, so `returnToMenu`
stays false.  Esc presses inside the end-of-iteration `MAX_WAIT` wait are
observationally the same as the Esc check that opens the next iteration and
fold into the next `GpsIn.esc`.  `set_position` updates no state this
machine tracks and is analysed separately.  Status `endedUser` is the
`end()` exit through Esc, `gpsLost` the `"GPS not Found!"` exit through
`count > 5`. -/

structure GpsIn where
  esc : Bool
  avail : Bool
  locUpdated : Bool
  year : Nat
  month : Nat
  day : Nat
  hour : Nat
  minute : Nat
  second : Nat
  nets : List Obs
deriving DecidableEq

inductive WStatus where
  | running
  | endedUser
  | gpsLost
deriving DecidableEq

structure LoopState where
  status : WStatus
  filename : String
  count : Nat
  wd : WDState
deriving DecidableEq

def appendToFile (s : LoopState) (i : GpsIn) : LoopState :=
  let s2 := if s.filename = "" then
      { s with filename := createFilename i.year i.month i.day i.hour i.minute i.second }
    else s
  { s2 with wd := processScan s2.wd i.nets }

def stepLoop (s : LoopState) (i : GpsIn) : LoopState :=
  if s.status = WStatus.running then
    if i.esc then { s with status := WStatus.endedUser }
    else if i.avail then
      let s2 := { s with count := 0 }
      if i.locUpdated then
        if i.nets.isEmpty then s2 else appendToFile s2 i
      else
        if s2.filename = "" ∧ CURRENT_YEAR ≤ i.year ∧ i.year < CURRENT_YEAR + 5 then
          { s2 with filename := createFilename i.year i.month i.day i.hour i.minute i.second }
        else s2
    else
      if s.count > 5 then { s with status := WStatus.gpsLost }
      else { s with count := s.count + 1 }
  else s

def initLoop : LoopState :=
  { status := WStatus.running, filename := "", count := 0,
    wd := { cache := [], index := [], rows := [], netCount := 0 } }

def runLoop (inp : Nat → GpsIn) : Nat → LoopState
  | 0 => initLoop
  | n + 1 => stepLoop (runLoop inp n) (inp n)

theorem setPosition_fold_dist (d : ℚ × ℚ → ℚ × ℚ → ℚ) (fixes : List (ℚ × ℚ)) :
    ∀ (lat lng x : ℚ),
    (fixes.foldl (setPosition d)
        { initialSet := true, curLat := lat, curLng := lng, dist := x }).dist
      = x + pairwiseSum d ((lat, lng) :: fixes) := by
  induction fixes with
  | nil => intro lat lng x; simp [pairwiseSum]
  | cons f rest ih =>
    intro lat lng x
    rw [List.foldl_cons]
    have h1 : setPosition d { initialSet := true, curLat := lat, curLng := lng, dist := x } f =
        { initialSet := true, curLat := f.1, curLng := f.2, dist := x + d (lat, lng) f } := by
      simp [setPosition]
    rw [h1, ih f.1 f.2 (x + d (lat, lng) f)]
    rw [pairwiseSum]
    simp [Prod.mk.eta]
    ring

/-- C8: the first valid fix sets the current position without any distance
contribution; every subsequent fix adds exactly the collaborator-computed
great-circle distance between the previous and the new coordinates before
updating the current position; consequently, over any fix sequence from a
fresh tracker the accumulated distance is the sum of the pairwise distances
between consecutive fixes.  `d` abstracts TinyGPS++'s haversine
`distanceBetween`. -/
theorem distance_is_pairwise_haversine_sum (d : ℚ × ℚ → ℚ × ℚ → ℚ) :
    (∀ (s : PosState) (f : ℚ × ℚ), s.initialSet = false →
      (setPosition d s f).dist = s.dist ∧ (setPosition d s f).curLat = f.1 ∧
      (setPosition d s f).curLng = f.2 ∧ (setPosition d s f).initialSet = true)
  ∧ (∀ (s : PosState) (f : ℚ × ℚ), s.initialSet = true →
      (setPosition d s f).dist = s.dist + d (s.curLat, s.curLng) f ∧
      (setPosition d s f).curLat = f.1 ∧ (setPosition d s f).curLng = f.2)
  ∧ (∀ fixes : List (ℚ × ℚ),
      (fixes.foldl (setPosition d) initPos).dist = pairwiseSum d fixes) := by
  refine ⟨?_, ?_, ?_⟩
  · intro s f h
    simp [setPosition, h]
  · intro s f h
    simp [setPosition, h]
  · intro fixes
    cases fixes with
    | nil => simp [pairwiseSum, initPos]
    | cons f rest =>
      rw [List.foldl_cons]
      have h1 : setPosition d initPos f =
          { initialSet := true, curLat := f.1, curLng := f.2, dist := 0 } := by
        simp [setPosition, initPos]
      rw [h1, setPosition_fold_dist d rest f.1 f.2 0]
      simp [Prod.mk.eta]

/-- Witness for `distance_is_pairwise_haversine_sum` with a concrete
distance function and the fix sequence `[(0,0), (3,4), (6,8)]`. -/
theorem distance_is_pairwise_haversine_sum_witness :
    initPos.initialSet = false ∧
    (setPosition (fun _ _ => (1 : ℚ)) initPos ((3 : ℚ), (4 : ℚ))).dist = initPos.dist ∧
    (setPosition (fun _ _ => (1 : ℚ)) initPos ((3 : ℚ), (4 : ℚ))).initialSet = true ∧
    (([((0 : ℚ), (0 : ℚ)), (3, 4), (6, 8)].foldl (setPosition (fun _ _ => (1 : ℚ)))
        initPos).dist = pairwiseSum (fun _ _ => (1 : ℚ)) [((0 : ℚ), (0 : ℚ)), (3, 4), (6, 8)]) := by
  have h := distance_is_pairwise_haversine_sum (fun _ _ => (1 : ℚ))
  exact ⟨rfl, (h.1 initPos (3, 4) rfl).1, (h.1 initPos (3, 4) rfl).2.2.2,
    h.2.2 [((0 : ℚ), (0 : ℚ)), (3, 4), (6, 8)]⟩

theorem beginGpsAux_silent (n : Nat) : ∀ (avail esc : Nat → Bool) (i : Nat),
    (∀ j, avail j = false) → (∀ j, esc j = false) → beginGpsAux avail esc i n = none := by
  induction n with
  | zero => intro avail esc i _ _; rfl
  | succ k ih =>
    intro avail esc i ha he
    rw [beginGpsAux, ha i, he i]
    simpa using ih avail esc (i + 1) ha he

/-- C2 counterexample: on the input stream where the positioning source
never produces any data and the user never cancels, the startup wait of
`begin_gps` never terminates — there is no bound after which the session
has transitioned to Terminated, contradicting the claimed bounded startup
window. -/
theorem begin_gps_no_timeout_counterexample :
    ¬ ∃ (n : Nat) (r : Bool),
        beginGpsAux (fun _ => false) (fun _ => false) 0 n = some r := by
  rintro ⟨n, r, h⟩
  rw [beginGpsAux_silent n (fun _ => false) (fun _ => false) 0 (fun _ => rfl) (fun _ => rfl)] at h
  exact Option.noConfusion h

/-- C2 (amended): the startup wait has no timeout.  If the positioning
source never produces data and the user never cancels, `begin_gps` is still
waiting after any number of iterations — it neither enters the session loop
nor terminates; its only exits are data arrival (proceed into the session)
and user cancellation while no data is available (Terminated). -/
theorem begin_gps_wait_unbounded (avail esc : Nat → Bool) :
    ((∀ j, avail j = false) → (∀ j, esc j = false) →
      ∀ i n, beginGpsAux avail esc i n = none)
  ∧ (∀ i n, avail i = true → beginGpsAux avail esc i (n + 1) = some true)
  ∧ (∀ i n, avail i = false → esc i = true →
      beginGpsAux avail esc i (n + 1) = some false) := by
  refine ⟨?_, ?_, ?_⟩
  · intro ha he i n
    exact beginGpsAux_silent n avail esc i ha he
  · intro i n ha
    rw [beginGpsAux, ha]
    rfl
  · intro i n ha he
    rw [beginGpsAux, ha, he]
    rfl

/-- Witness for `begin_gps_wait_unbounded` at concrete streams: the silent
stream is still waiting after 3 iterations; a stream with data exits with
success; a dataless stream with Esc pressed exits cancelled. -/
theorem begin_gps_wait_unbounded_witness :
    beginGpsAux (fun _ => false) (fun _ => false) 0 3 = none ∧
    beginGpsAux (fun _ => true) (fun _ => false) 0 1 = some true ∧
    beginGpsAux (fun _ => false) (fun _ => true) 0 1 = some false :=
  ⟨(begin_gps_wait_unbounded (fun _ => false) (fun _ => false)).1
      (fun _ => rfl) (fun _ => rfl) 0 3,
   (begin_gps_wait_unbounded (fun _ => true) (fun _ => false)).2.1 0 0 rfl,
   (begin_gps_wait_unbounded (fun _ => false) (fun _ => true)).2.2 0 0 rfl rfl⟩

/-- C1 counterexample: at GPS date/time 2024-11-28 12:30:45 — a year the
loop's own plausibility guard accepts — `create_filename` renders the full
four-digit year, producing a 30-character name that is not of the claimed
`YYMMDD_HHMMSS_wardriving.csv` shape (two-digit year, 28 characters). -/
theorem filename_shape_counterexample :
    createFilename 2024 11 28 12 30 45 = "20241128_123045_wardriving.csv" ∧
    specClaimedFilenameShape (createFilename 2024 11 28 12 30 45) = false ∧
    (CURRENT_YEAR ≤ 2024 ∧ 2024 < CURRENT_YEAR + 5) := by
  decide

theorem stepLoop_filename_cases (s : LoopState) (i : GpsIn) :
    (stepLoop s i).filename = s.filename ∨
    (s.filename = "" ∧ (stepLoop s i).filename =
      createFilename i.year i.month i.day i.hour i.minute i.second) := by
  by_cases hst : s.status = WStatus.running
  case neg =>
    left
    rw [stepLoop, if_neg hst]
  case pos =>
    by_cases hesc : i.esc = true
    · left
      simp [stepLoop, hst, hesc]
    · by_cases hav : i.avail = true
      · by_cases hloc : i.locUpdated = true
        · by_cases hnets : i.nets.isEmpty = true
          · left
            simp [stepLoop, hst, hesc, hav, hloc, hnets]
          · by_cases hfn : s.filename = ""
            · right
              refine ⟨hfn, ?_⟩
              simp [stepLoop, hst, hesc, hav, hloc, hnets, appendToFile, hfn]
            · left
              simp [stepLoop, hst, hesc, hav, hloc, hnets, appendToFile, hfn]
        · by_cases hcond : s.filename = "" ∧ CURRENT_YEAR ≤ i.year ∧ i.year < CURRENT_YEAR + 5
          · right
            exact ⟨hcond.1, by simp [stepLoop, hst, hesc, hav, hloc, hcond]⟩
          · left
            simp [stepLoop, hst, hesc, hav, hloc, hcond]
      · left
        by_cases hcnt : s.count > 5
        · simp [stepLoop, hst, hesc, hav, hcnt]
        · simp [stepLoop, hst, hesc, hav, hcnt]

/-- C1 (amended): the session filename is derived at most once — once
nonempty it never changes for the remainder of the session — and whenever
an iteration sets it, it is set to `create_filename` of that iteration's
GPS date/time, which renders the full (four-digit) year rather than the
claimed two-digit `YY`: for any year of at least two digits the name starts
with the year's full decimal representation. -/
theorem filename_once_and_stable :
    (∀ (s : LoopState) (i : GpsIn), s.filename ≠ "" → (stepLoop s i).filename = s.filename)
  ∧ (∀ (s : LoopState) (i : GpsIn), (stepLoop s i).filename = s.filename ∨
      (s.filename = "" ∧ (stepLoop s i).filename =
        createFilename i.year i.month i.day i.hour i.minute i.second))
  ∧ (∀ (inp : Nat → GpsIn) (n m : Nat), n ≤ m → (runLoop inp n).filename ≠ "" →
      (runLoop inp m).filename = (runLoop inp n).filename)
  ∧ (∀ y mo d h mi s : Nat, 10 ≤ y →
      createFilename y mo d h mi s =
        toString y ++ pad2 mo ++ pad2 d ++ "_" ++ pad2 h ++ pad2 mi ++ pad2 s ++
          "_wardriving.csv") := by
  have hstep : ∀ (s : LoopState) (i : GpsIn), s.filename ≠ "" →
      (stepLoop s i).filename = s.filename := by
    intro s i h
    rcases stepLoop_filename_cases s i with hsame | ⟨hempty, _⟩
    · exact hsame
    · exact absurd hempty h
  refine ⟨hstep, stepLoop_filename_cases, ?_, ?_⟩
  · intro inp n m hnm hne
    induction m, hnm using Nat.le_induction with
    | base => rfl
    | succ m hm ih =>
      have : runLoop inp (m + 1) = stepLoop (runLoop inp m) (inp m) := rfl
      rw [this, hstep (runLoop inp m) (inp m) (by rw [ih]; exact hne), ih]
  · intro y mo d h mi s hy
    have : pad2 y = toString y := by
      rw [pad2, if_neg]
      omega
    rw [createFilename, this]

def gpsColdStart : GpsIn :=
  { esc := false, avail := true, locUpdated := true, year := 2000, month := 1, day := 1,
    hour := 0, minute := 0, second := 0, nets := [⟨"AA:BB:CC:DD:EE:01", "Net1"⟩] }

/-- Witness for `filename_once_and_stable`: a state with a nonempty
filename keeps it across a step; after the cold-start iteration has set a
filename, it is unchanged at the next iteration; and the concrete year 2024
is rendered in full. -/
theorem filename_once_and_stable_witness :
    (({ initLoop with filename := "F" } : LoopState).filename ≠ "" ∧
      (stepLoop { initLoop with filename := "F" } gpsColdStart).filename =
        ({ initLoop with filename := "F" } : LoopState).filename) ∧
    ((1 : Nat) ≤ 2 ∧ (runLoop (fun _ => gpsColdStart) 1).filename ≠ "" ∧
      (runLoop (fun _ => gpsColdStart) 2).filename =
        (runLoop (fun _ => gpsColdStart) 1).filename) ∧
    ((10 : Nat) ≤ 2024 ∧ createFilename 2024 11 28 12 30 45 =
      toString (2024 : Nat) ++ pad2 11 ++ pad2 28 ++ "_" ++ pad2 12 ++ pad2 30 ++ pad2 45 ++
        "_wardriving.csv") :=
  ⟨⟨by decide, filename_once_and_stable.1 { initLoop with filename := "F" } gpsColdStart
      (by decide)⟩,
   ⟨by decide, by decide, filename_once_and_stable.2.2.1 (fun _ => gpsColdStart) 1 2
      (by decide) (by decide)⟩,
   ⟨by decide, filename_once_and_stable.2.2.2 2024 11 28 12 30 45 (by decide)⟩⟩

/-- C9: when the first location fix of a session arrives while the GPS
clock still reads a cold-start date (year 2000), the scan path reaches
`append_to_file`, which derives the filename with no calendar-year
plausibility check: after one such iteration the session filename is
derived from year 2000, which lies outside the loop's own 5-year window
`[CURRENT_YEAR, CURRENT_YEAR + 5)`. -/
theorem append_filename_without_year_check :
    (runLoop (fun _ => gpsColdStart) 1).filename = "20000101_000000_wardriving.csv" ∧
    ¬ (CURRENT_YEAR ≤ 2000 ∧ 2000 < CURRENT_YEAR + 5) := by
  decide

theorem stepLoop_nonrunning {s : LoopState} (i : GpsIn) (h : s.status ≠ WStatus.running) :
    stepLoop s i = s := by
  rw [stepLoop, if_neg h]

theorem status_running_of_step {s : LoopState} {i : GpsIn}
    (h : (stepLoop s i).status = WStatus.running) : s.status = WStatus.running := by
  by_contra hne
  rw [stepLoop_nonrunning i hne] at h
  exact hne h

theorem stepLoop_esc {s : LoopState} {i : GpsIn} (hs : s.status = WStatus.running)
    (he : i.esc = true) : stepLoop s i = { s with status := WStatus.endedUser } := by
  simp [stepLoop, hs, he]

theorem stepLoop_empty {s : LoopState} {i : GpsIn} (hs : s.status = WStatus.running)
    (he : i.esc = false) (ha : i.avail = false) :
    stepLoop s i =
      if s.count > 5 then { s with status := WStatus.gpsLost }
      else { s with count := s.count + 1 } := by
  simp [stepLoop, hs, he, ha]

theorem stepLoop_avail {s : LoopState} {i : GpsIn} (hs : s.status = WStatus.running)
    (he : i.esc = false) (ha : i.avail = true) :
    (stepLoop s i).count = 0 ∧ (stepLoop s i).status = WStatus.running := by
  by_cases hloc : i.locUpdated = true
  · by_cases hnets : i.nets.isEmpty = true
    · simp [stepLoop, hs, he, ha, hloc, hnets]
    · simp [stepLoop, hs, he, ha, hloc, hnets, appendToFile]
      by_cases hfn : s.filename = "" <;> simp [hfn]
  · by_cases hcond : s.filename = "" ∧ CURRENT_YEAR ≤ i.year ∧ i.year < CURRENT_YEAR + 5
    · simp [stepLoop, hs, he, ha, hloc, hcond]
    · simp [stepLoop, hs, he, ha, hloc, hcond]

def emptyPoll : GpsIn :=
  { esc := false, avail := false, locUpdated := false, year := 0, month := 0, day := 0,
    hour := 0, minute := 0, second := 0, nets := [] }

def availPoll : GpsIn := { emptyPoll with avail := true }

/-- The input stream whose first 6 polling iterations have no positioning
data and which delivers data from iteration 6 onward. -/
def stream6 : Nat → GpsIn := fun n => if n < 6 then emptyPoll else availPoll

theorem stream6_running (n : Nat) :
    (runLoop stream6 n).status = WStatus.running ∧
    (runLoop stream6 n).count = if n ≤ 6 then n else 0 := by
  induction n with
  | zero => exact ⟨rfl, rfl⟩
  | succ k ih =>
    obtain ⟨hst, hcnt⟩ := ih
    have hrl : runLoop stream6 (k + 1) = stepLoop (runLoop stream6 k) (stream6 k) := rfl
    by_cases hk : k < 6
    · have hin : stream6 k = emptyPoll := by simp [stream6, hk]
      have hcle : (runLoop stream6 k).count = k := by rw [hcnt, if_pos (by omega)]
      have hngt : ¬ (runLoop stream6 k).count > 5 := by rw [hcle]; omega
      rw [hrl, hin, stepLoop_empty hst rfl rfl, if_neg hngt]
      refine ⟨hst, ?_⟩
      rw [if_pos (show k + 1 ≤ 6 by omega)]
      simp [hcle]
    · have hin : stream6 k = availPoll := by simp [stream6, hk]
      have hav := stepLoop_avail (i := availPoll) hst rfl rfl
      rw [hrl, hin]
      refine ⟨hav.2, ?_⟩
      rw [hav.1, if_neg (by omega)]

/-- C6 counterexample: on the stream whose first 6 polling iterations have
no positioning data — more than 5 consecutive dataless iterations — and
which then delivers data again, the session is never terminated: the fatal
exit would fire only during a 7th consecutive dataless poll, which this
stream never has. -/
theorem gps_timeout_claim_counterexample :
    ((List.range 6).all fun j => !(stream6 j).avail) = true ∧
    ¬ ∃ n, (runLoop stream6 n).status = WStatus.gpsLost := by
  refine ⟨by decide, ?_⟩
  rintro ⟨n, hn⟩
  have h := (stream6_running n).1
  rw [hn] at h
  exact WStatus.noConfusion h

theorem runLoop_frozen (inp : Nat → GpsIn) {n : Nat} (m : Nat)
    (h : (runLoop inp n).status ≠ WStatus.running) (hnm : n ≤ m) :
    runLoop inp m = runLoop inp n := by
  induction m, hnm using Nat.le_induction with
  | base => rfl
  | succ m hm ih =>
    have hs : runLoop inp (m + 1) = stepLoop (runLoop inp m) (inp m) := rfl
    rw [hs, ih, stepLoop_nonrunning _ h]

theorem count_trailing (inp : Nat → GpsIn) (n : Nat) :
    (runLoop inp n).status = WStatus.running →
    (runLoop inp n).count ≤ n ∧
    ∀ j, j < (runLoop inp n).count → (inp (n - 1 - j)).avail = false := by
  induction n with
  | zero =>
    intro _
    exact ⟨Nat.le_refl 0, fun j hj => absurd hj (by simp [runLoop, initLoop])⟩
  | succ k ih =>
    intro hrun
    have hs : runLoop inp (k + 1) = stepLoop (runLoop inp k) (inp k) := rfl
    have hks : (runLoop inp k).status = WStatus.running := status_running_of_step (hs ▸ hrun)
    obtain ⟨hle, htrail⟩ := ih hks
    by_cases hesc : (inp k).esc = true
    · exfalso
      rw [hs, stepLoop_esc hks hesc] at hrun
      exact WStatus.noConfusion hrun
    · simp only [Bool.not_eq_true] at hesc
      by_cases hav : (inp k).avail = true
      · have h0 := (stepLoop_avail hks hesc hav).1
        rw [hs, h0]
        exact ⟨Nat.zero_le _, fun j hj => absurd hj (by omega)⟩
      · simp only [Bool.not_eq_true] at hav
        rw [hs, stepLoop_empty hks hesc hav] at hrun ⊢
        by_cases hgt : (runLoop inp k).count > 5
        · exfalso
          rw [if_pos hgt] at hrun
          exact WStatus.noConfusion hrun
        · rw [if_neg hgt]
          refine ⟨by simp; omega, ?_⟩
          intro j hj
          simp at hj
          match j, hj with
          | 0, _ =>
            simpa using hav
          | j + 1, hj =>
            have : k + 1 - 1 - (j + 1) = k - 1 - j := by omega
            rw [this]
            exact htrail j (by omega)

/-- C6 (amended): in the Running state the fatal GPS-lost exit fires during
the 7th consecutive dataless polling iteration — `count > 5` is checked
before the increment, so the receiver is declared disconnected only after
more than 6 consecutive iterations without data; and while data keeps
arriving at least once in every 7 consecutive iterations (any available
data resets the counter), the session is never terminated for this
reason. -/
theorem gps_lost_threshold :
    (∀ (inp : Nat → GpsIn) (n : Nat), (runLoop inp n).status = WStatus.running →
      (∀ k, k < 7 → (inp (n + k)).esc = false ∧ (inp (n + k)).avail = false) →
      (runLoop inp (n + 7)).status = WStatus.gpsLost)
  ∧ (∀ inp : Nat → GpsIn, (∀ n, ∃ k, k ≤ 6 ∧ (inp (n + k)).avail = true) →
      ∀ m, (runLoop inp m).status ≠ WStatus.gpsLost) := by
  constructor
  · intro inp n hrun hempty
    have aux : ∀ k, k ≤ 6 →
        (runLoop inp (n + k)).status = WStatus.gpsLost ∨
        ((runLoop inp (n + k)).status = WStatus.running ∧ k ≤ (runLoop inp (n + k)).count) := by
      intro k
      induction k with
      | zero => intro _; exact Or.inr ⟨hrun, Nat.zero_le _⟩
      | succ j ihj =>
        intro hj7
        have hs : runLoop inp (n + (j + 1)) =
            stepLoop (runLoop inp (n + j)) (inp (n + j)) := rfl
        rcases ihj (by omega) with hlost | ⟨hrn, hcnt⟩
        · left
          rw [hs, stepLoop_nonrunning _ (by rw [hlost]; exact WStatus.noConfusion)]
          exact hlost
        · obtain ⟨he, ha⟩ := hempty j (by omega)
          rw [hs, stepLoop_empty hrn he ha]
          by_cases hgt : (runLoop inp (n + j)).count > 5
          · left
            rw [if_pos hgt]
          · right
            rw [if_neg hgt]
            exact ⟨hrn, by simp; omega⟩
    rcases aux 6 (by omega) with hlost | ⟨hrn, hcnt⟩
    · have h7 : runLoop inp (n + 7) = runLoop inp (n + 6) :=
        runLoop_frozen inp (n + 7) (by rw [hlost]; exact WStatus.noConfusion) (by omega)
      rw [h7]
      exact hlost
    · obtain ⟨he, ha⟩ := hempty 6 (by omega)
      have hs : runLoop inp (n + 7) = stepLoop (runLoop inp (n + 6)) (inp (n + 6)) := rfl
      rw [hs, stepLoop_empty hrn he ha, if_pos (by omega)]
  · intro inp hdata m
    induction m with
    | zero => exact fun h => WStatus.noConfusion h
    | succ k ih =>
      intro hlost
      have hs : runLoop inp (k + 1) = stepLoop (runLoop inp k) (inp k) := rfl
      by_cases hks : (runLoop inp k).status = WStatus.running
      · by_cases hesc : (inp k).esc = true
        · rw [hs, stepLoop_esc hks hesc] at hlost
          exact WStatus.noConfusion hlost
        · simp only [Bool.not_eq_true] at hesc
          by_cases hav : (inp k).avail = true
          · have := (stepLoop_avail hks hesc hav).2
            rw [hs, this] at hlost
            exact WStatus.noConfusion hlost
          · simp only [Bool.not_eq_true] at hav
            rw [hs, stepLoop_empty hks hesc hav] at hlost
            by_cases hgt : (runLoop inp k).count > 5
            · obtain ⟨hle, htrail⟩ := count_trailing inp k hks
              obtain ⟨j, hj6, hjav⟩ := hdata (k - 6)
              have hk6 : 6 ≤ k := by omega
              by_cases hj : j = 6
              · subst hj
                rw [show k - 6 + 6 = k by omega] at hjav
                rw [hjav] at hav
                exact Bool.noConfusion hav
              · have hidx : k - 6 + j = k - 1 - (5 - j) := by omega
                rw [hidx] at hjav
                have := htrail (5 - j) (by omega)
                rw [this] at hjav
                exact Bool.noConfusion hjav
            · rw [if_neg hgt] at hlost
              have hcontr : (runLoop inp k).status = WStatus.gpsLost := hlost
              rw [hks] at hcontr
              exact WStatus.noConfusion hcontr
      · rw [hs, stepLoop_nonrunning _ hks] at hlost
        exact ih hlost

/-- Witness for `gps_lost_threshold`: on the always-dataless stream the
session reaches the GPS-lost exit at iteration 7; on the always-available
stream it is never terminated for this reason (checked at iteration 3). -/
theorem gps_lost_threshold_witness :
    ((runLoop (fun _ => emptyPoll) 0).status = WStatus.running ∧
      (runLoop (fun _ => emptyPoll) (0 + 7)).status = WStatus.gpsLost) ∧
    (runLoop (fun _ => availPoll) 3).status ≠ WStatus.gpsLost :=
  ⟨⟨rfl, gps_lost_threshold.1 (fun _ => emptyPoll) 0 rfl (fun _ _ => ⟨rfl, rfl⟩)⟩,
   gps_lost_threshold.2 (fun _ => availPoll) (fun _ => ⟨0, by omega, rfl⟩) 3⟩
